import Mathlib

/-!
Verification of the structural-inspection engine of the `etops` repository
(`extscripts/python/dotnet_app_inspector.py` and
`extscripts/python/maven_app_inspector.py`).

Source text is modelled as `List Char`.  Python strings that may be `None`
become `Option String`; filesystem paths become lists of path components;
Python `dict`s become association lists with last-assignment-wins lookup
(`lookupLast`), matching dict assignment semantics.  Exceptions raised by a
per-file parser are modelled with `Except`.
-/

set_option maxHeartbeats 1000000

namespace Etops

/-- The double-quote character `"` (written via its code point). -/
def dq : Char := Char.ofNat 34

/-- The single-quote character (written via its code point). -/
def sq : Char := Char.ofNat 39

/-- The backslash character (written via its code point). -/
def bsl : Char := Char.ofNat 92

/-! ### Lexical sanitizer, C# front-end
(`strip_csharp_comments_and_strings`, dotnet_app_inspector.py lines 56-171).

The Python is a single `while` loop over the character index with boolean
state flags `in_sl_comment`, `in_ml_comment`, `in_str`, `in_verbatim_str`,
`in_char` (at most one of which is set).  We model the flag vector as
`CsMode` and the loop as structural recursion over the remaining input;
`ch2 = code[i+1] if i + 1 < n else ""` becomes matching two characters
deep.  Each loop iteration consumes one or two characters and appends
exactly as many, so the recursion mirrors the index advance faithfully. -/

inductive CsMode where
  | normal | slc | mlc | str | verb | chr
deriving DecidableEq

/-- One pass of the C# stripper starting in mode `m`. -/
def stripCsFrom : CsMode → List Char → List Char
  | _, [] => []
  | CsMode.slc, c :: r =>
      (if c = '\n' then '\n' else ' ') ::
        stripCsFrom (if c = '\n' then CsMode.normal else CsMode.slc) r
  | CsMode.mlc, c :: c2 :: r =>
      if c = '*' ∧ c2 = '/' then ' ' :: ' ' :: stripCsFrom CsMode.normal r
      else (if c = '\n' then '\n' else ' ') :: stripCsFrom CsMode.mlc (c2 :: r)
  | CsMode.mlc, [c] => [if c = '\n' then '\n' else ' ']
  | CsMode.verb, c :: c2 :: r =>
      if c = dq ∧ c2 = dq then ' ' :: ' ' :: stripCsFrom CsMode.verb r
      else if c = dq then ' ' :: stripCsFrom CsMode.normal (c2 :: r)
      else (if c = '\n' then '\n' else ' ') :: stripCsFrom CsMode.verb (c2 :: r)
  | CsMode.verb, [c] => [if c = dq then ' ' else if c = '\n' then '\n' else ' ']
  | CsMode.str, c :: c2 :: r =>
      if c = bsl then ' ' :: ' ' :: stripCsFrom CsMode.str r
      else if c = dq then ' ' :: stripCsFrom CsMode.normal (c2 :: r)
      else ' ' :: stripCsFrom CsMode.str (c2 :: r)
  | CsMode.str, [_] => [' ']
  | CsMode.chr, c :: c2 :: r =>
      if c = bsl then ' ' :: ' ' :: stripCsFrom CsMode.chr r
      else if c = sq then ' ' :: stripCsFrom CsMode.normal (c2 :: r)
      else ' ' :: stripCsFrom CsMode.chr (c2 :: r)
  | CsMode.chr, [_] => [' ']
  | CsMode.normal, c :: c2 :: r =>
      if c = '/' ∧ c2 = '/' then ' ' :: ' ' :: stripCsFrom CsMode.slc r
      else if c = '/' ∧ c2 = '*' then ' ' :: ' ' :: stripCsFrom CsMode.mlc r
      else if c = '@' ∧ c2 = dq then ' ' :: ' ' :: stripCsFrom CsMode.verb r
      else if c = dq then ' ' :: stripCsFrom CsMode.str (c2 :: r)
      else if c = sq then ' ' :: stripCsFrom CsMode.chr (c2 :: r)
      else c :: stripCsFrom CsMode.normal (c2 :: r)
  | CsMode.normal, [c] =>
      if c = dq then [' '] else if c = sq then [' '] else [c]

/-- Function `strip_csharp_comments_and_strings`: the stripper started in the
initial (all-flags-false) state. -/
def strip_csharp_comments_and_strings (code : List Char) : List Char :=
  stripCsFrom CsMode.normal code

/-! ### Lexical sanitizer, Java front-end
(`strip_java_comments_and_strings`, maven_app_inspector.py lines 59-146).
Same machine without the verbatim-string state and without the `@"` entry. -/

inductive JMode where
  | normal | slc | mlc | str | chr
deriving DecidableEq

/-- One pass of the Java stripper starting in mode `m`. -/
def stripJavaFrom : JMode → List Char → List Char
  | _, [] => []
  | JMode.slc, c :: r =>
      (if c = '\n' then '\n' else ' ') ::
        stripJavaFrom (if c = '\n' then JMode.normal else JMode.slc) r
  | JMode.mlc, c :: c2 :: r =>
      if c = '*' ∧ c2 = '/' then ' ' :: ' ' :: stripJavaFrom JMode.normal r
      else (if c = '\n' then '\n' else ' ') :: stripJavaFrom JMode.mlc (c2 :: r)
  | JMode.mlc, [c] => [if c = '\n' then '\n' else ' ']
  | JMode.str, c :: c2 :: r =>
      if c = bsl then ' ' :: ' ' :: stripJavaFrom JMode.str r
      else if c = dq then ' ' :: stripJavaFrom JMode.normal (c2 :: r)
      else ' ' :: stripJavaFrom JMode.str (c2 :: r)
  | JMode.str, [_] => [' ']
  | JMode.chr, c :: c2 :: r =>
      if c = bsl then ' ' :: ' ' :: stripJavaFrom JMode.chr r
      else if c = sq then ' ' :: stripJavaFrom JMode.normal (c2 :: r)
      else ' ' :: stripJavaFrom JMode.chr (c2 :: r)
  | JMode.chr, [_] => [' ']
  | JMode.normal, c :: c2 :: r =>
      if c = '/' ∧ c2 = '/' then ' ' :: ' ' :: stripJavaFrom JMode.slc r
      else if c = '/' ∧ c2 = '*' then ' ' :: ' ' :: stripJavaFrom JMode.mlc r
      else if c = dq then ' ' :: stripJavaFrom JMode.str (c2 :: r)
      else if c = sq then ' ' :: stripJavaFrom JMode.chr (c2 :: r)
      else c :: stripJavaFrom JMode.normal (c2 :: r)
  | JMode.normal, [c] =>
      if c = dq then [' '] else if c = sq then [' '] else [c]

/-- Function `strip_java_comments_and_strings`: the stripper started in the
initial state. -/
def strip_java_comments_and_strings (code : List Char) : List Char :=
  stripJavaFrom JMode.normal code

/-! ### Parameter splitter
(`split_params`, identical in dotnet_app_inspector.py lines 211-234 and
maven_app_inspector.py lines 148-175.) -/

/-- Python `str.strip()` whitespace test (default whitespace set). -/
def pyWs (c : Char) : Bool :=
  decide (c = ' ' ∨ c = Char.ofNat 9 ∨ c = Char.ofNat 10 ∨ c = Char.ofNat 13 ∨
    c = Char.ofNat 11 ∨ c = Char.ofNat 12)

/-- Python `str.strip()`: drop whitespace from both ends. -/
def pyStrip (l : List Char) : List Char :=
  ((l.dropWhile pyWs).reverse.dropWhile pyWs).reverse

/-- The loop of `split_params`: `depth` is the `<`/`>` nesting counter
(`Nat` subtraction gives the `max(0, depth - 1)` floor), `cur` is the
`current` accumulator; finished segments are emitted when non-empty after
stripping, exactly as the Python appends them to `params`. -/
def splitParamsAux : Nat → List Char → List Char → List (List Char)
  | _, cur, [] => if pyStrip cur = [] then [] else [pyStrip cur]
  | depth, cur, c :: rest =>
      if c = '<' then splitParamsAux (depth + 1) (cur ++ [c]) rest
      else if c = '>' then splitParamsAux (depth - 1) (cur ++ [c]) rest
      else if c = ',' ∧ depth = 0 then
        (if pyStrip cur = [] then [] else [pyStrip cur]) ++ splitParamsAux 0 [] rest
      else splitParamsAux depth (cur ++ [c]) rest

/-- Function `split_params`. -/
def split_params (param_block : List Char) : List (List Char) :=
  splitParamsAux 0 [] param_block

/-! ### Position-based ownership
(`owning_type_index`, dotnet_app_inspector.py lines 326-330 and
maven_app_inspector.py lines 436-440: a linear scan over the sorted
boundary list, which already carries the end-of-file sentinel, returning
the first interval containing `pos`.) -/

def owningTypeIndexFrom (k : Nat) : List Nat → Nat → Option Nat
  | b0 :: b1 :: rest, pos =>
      if b0 ≤ pos ∧ pos < b1 then some k
      else owningTypeIndexFrom (k + 1) (b1 :: rest) pos
  | _, _ => none

/-- Function `owning_type_index`: here `boundaries` is the sorted list of type start
offsets with the sentinel appended. -/
def owning_type_index (boundaries : List Nat) (pos : Nat) : Option Nat :=
  owningTypeIndexFrom 0 boundaries pos

/-! ### Member attribution
(member loops of `parse_csharp_file` lines 333-397 and `parse_java_file`
lines 443-519).  A type under construction is its name plus the method and
constructor name lists accumulated so far (`"methods": []`,
`"constructors": []` at creation); regex matches are abstracted as
(start-offset, captured-name) pairs. -/

structure TypeAcc where
  name : String
  methods : List String
  ctors : List String
deriving DecidableEq

/-- Fresh per-type accumulators, in declaration order. -/
def initTypes (names : List String) : List TypeAcc :=
  names.map (fun n => ⟨n, [], []⟩)

/-- One iteration of the method loop: find the owning interval, skip when
there is none or it is out of range, else append to that type. -/
def add_method (locs : List Nat) (types : List TypeAcc) (m : Nat × String) :
    List TypeAcc :=
  match owning_type_index locs m.1 with
  | none => types
  | some idx =>
      if h : idx < types.length then
        let t := types.get ⟨idx, h⟩
        types.set idx ⟨t.name, t.methods ++ [m.2], t.ctors⟩
      else types

/-- One iteration of the constructor loop: as `add_method`, but a match
whose captured name differs from the owning type's name is skipped. -/
def add_ctor (locs : List Nat) (types : List TypeAcc) (m : Nat × String) :
    List TypeAcc :=
  match owning_type_index locs m.1 with
  | none => types
  | some idx =>
      if h : idx < types.length then
        let t := types.get ⟨idx, h⟩
        if m.2 = t.name then types.set idx ⟨t.name, t.methods, t.ctors ++ [m.2]⟩
        else types
      else types

def collect_methods (types : List TypeAcc) (locs : List Nat)
    (ms : List (Nat × String)) : List TypeAcc :=
  ms.foldl (add_method locs) types

def collect_ctors (types : List TypeAcc) (locs : List Nat)
    (ms : List (Nat × String)) : List TypeAcc :=
  ms.foldl (add_ctor locs) types

/-- Lookup in an association list with Python-dict semantics: a later
binding of the same key overwrites an earlier one. -/
def lookupLast {α β : Type} [DecidableEq α] : List (α × β) → α → Option β
  | [], _ => none
  | (k, v) :: rest, key =>
      match lookupLast rest key with
      | some r => some r
      | none => if k = key then some v else none

namespace Dotnet

/-! ### .NET cross-project graph
(`build_graph`, dotnet_app_inspector.py lines 540-587).  Filesystem paths
are modelled as lists of path components (absolute, rooted at the list
head); a reference's include path is a list of components relative to the
referencing project's directory, possibly containing `..`.
`Path.resolve()` becomes `normComps`, which normalizes `.` and `..`. -/

def normComps (comps : List String) : List String :=
  comps.foldl
    (fun acc c =>
      if c = "." then acc
      else if c = ".." then acc.dropLast
      else acc ++ [c]) []

structure CsProjRef where
  includePath : Option (List String)
  refName : Option String
  projectGuid : Option String
deriving DecidableEq

structure CsProject where
  csprojPath : List String
  dir : List String
  projectReferences : List CsProjRef
  packageReferences : List (String × Option String)
deriving DecidableEq

structure CsRefEdge where
  src : List String
  dst : List String
  refName : Option String
  projectGuid : Option String
deriving DecidableEq

structure CsPkgEdge where
  src : List String
  package : String
  version : Option String
deriving DecidableEq

/-- Index `by_path`: map from resolved descriptor path to project. -/
def by_path (projects : List CsProject) : List (List String × CsProject) :=
  projects.map (fun p => (normComps p.csprojPath, p))

/-- The single edge produced for one project reference with include path
`inc`: the include is resolved against the project directory, looked up
in the index, and the edge points at the internal identity on a hit and
at the literal resolved path otherwise. -/
def refEdge (idx : List (List String × CsProject)) (p : CsProject)
    (pr : CsProjRef) (inc : List String) : CsRefEdge :=
  ⟨p.csprojPath,
    match lookupLast idx (normComps (normComps p.dir ++ inc)) with
    | some q => q.csprojPath
    | none => normComps (normComps p.dir ++ inc),
    pr.refName, pr.projectGuid⟩

/-- The project-reference loop for one project, in reference order: a
reference with an empty include is skipped (`if not include: continue`);
otherwise exactly one edge is appended. -/
def projRefEdges (idx : List (List String × CsProject)) (p : CsProject) :
    List CsProjRef → List CsRefEdge
  | [] => []
  | pr :: rest =>
      (match pr.includePath with
       | none => []
       | some inc => [refEdge idx p pr inc]) ++ projRefEdges idx p rest

/-- The outer loop over projects for project-reference edges. -/
def allProjRefEdges (idx : List (List String × CsProject)) :
    List CsProject → List CsRefEdge
  | [] => []
  | p :: rest => projRefEdges idx p p.projectReferences ++ allProjRefEdges idx rest

/-- The outer loop over projects for package-dependency edges. -/
def allPkgEdges : List CsProject → List CsPkgEdge
  | [] => []
  | p :: rest =>
      p.packageReferences.map (fun d => ⟨p.csprojPath, d.1, d.2⟩) ++ allPkgEdges rest

structure CsGraph where
  project_references : List CsRefEdge
  package_dependencies : List CsPkgEdge
deriving DecidableEq

/-- Function `build_graph` for the .NET inspector. -/
def build_graph (projects : List CsProject) : CsGraph :=
  let idx := by_path projects
  { project_references := allProjRefEdges idx projects
    package_dependencies := allPkgEdges projects }

/-! ### Property groups of `parse_csproj`
(dotnet_app_inspector.py lines 430-439).  A property group is a list of
(tag, text) children, the text already put through `_xml_text` (`none`
for a missing/empty text node).  A child with falsy text is skipped, and
a tag already present in `props` is never overwritten. -/

def collectPropsGroup (props : List (String × String))
    (group : List (String × Option String)) : List (String × String) :=
  group.foldl
    (fun acc child =>
      match child.2 with
      | none => acc
      | some v =>
          if v = "" then acc
          else
            match lookupLast acc child.1 with
            | some _ => acc
            | none => acc ++ [(child.1, v)]) props

/-- The `props` dictionary built by `parse_csproj` from the top-level
property groups, in document order. -/
def parse_csproj_props (groups : List (List (String × Option String))) :
    List (String × String) :=
  groups.foldl collectPropsGroup []

/-- The first child with a non-empty value for `tag` across a flattened
sequence of property-group children (specification-order first
occurrence). -/
def firstValid : List (String × Option String) → String → Option String
  | [], _ => none
  | (t, v) :: rest, tag =>
      match v with
      | some s => if s ≠ "" ∧ t = tag then some s else firstValid rest tag
      | none => firstValid rest tag

end Dotnet

namespace Maven

/-! ### Maven coordinates and dependency edges
(`ga_key`, `gav_key`, `build_graph`, maven_app_inspector.py lines
565-635).  Python string truthiness (`if g and a`) is modelled by
`truthy`, which rejects both `None` and the empty string. -/

def truthy : Option String → Option String
  | some s => if s = "" then none else some s
  | none => none

def ga_key (g a : Option String) : Option String :=
  match truthy g, truthy a with
  | some g, some a => some (g ++ ":" ++ a)
  | _, _ => none

def gav_key (g a v : Option String) : Option String :=
  match truthy g, truthy a, truthy v with
  | some g, some a, some v => some (g ++ ":" ++ a ++ ":" ++ v)
  | _, _, _ => none

structure MvnDep where
  ga : Option String
  gav : Option String
  scope : String
deriving DecidableEq

structure MvnProject where
  groupId : Option String
  artifactId : Option String
  version : Option String
  dependencies : List MvnDep
deriving DecidableEq

def projGav (p : MvnProject) : Option String :=
  gav_key p.groupId p.artifactId p.version

/-- Index `by_gav`: coordinate index over projects with a full identity, in
scan order (`lookupLast` later gives dict overwrite semantics). -/
def by_gav : List MvnProject → List (String × MvnProject)
  | [] => []
  | p :: rest =>
      (match projGav p with
       | some k => [(k, p)]
       | none => []) ++ by_gav rest

/-- Index `by_ga`: group:artifact index, in scan order. -/
def by_ga : List MvnProject → List (String × MvnProject)
  | [] => []
  | p :: rest =>
      (match ga_key p.groupId p.artifactId with
       | some k => [(k, p)]
       | none => []) ++ by_ga rest

structure DepEdge where
  srcGav : String
  toGav : Option String
  scope : String
deriving DecidableEq

/-- The `elif ga and ga in by_ga / else` part of the dependency loop:
an internal group:artifact hit is re-pointed at that project's own
current identity, a miss yields the raw coordinate (or `"external"` when
even the group:artifact coordinate is absent). -/
def edge_target_ga (gaIdx : List (String × MvnProject)) (d : MvnDep) :
    Option String :=
  match truthy d.ga with
  | some ga =>
      match lookupLast gaIdx ga with
      | some tgt => gav_key tgt.groupId tgt.artifactId tgt.version
      | none => some ga
  | none => some "external"

/-- The `to` value of one dependency edge. -/
def edge_target (gavIdx gaIdx : List (String × MvnProject)) (d : MvnDep) :
    Option String :=
  match truthy d.gav with
  | some g =>
      match lookupLast gavIdx g with
      | some _ => some g
      | none => edge_target_ga gaIdx d
  | none => edge_target_ga gaIdx d

/-- The dependency loop of `build_graph`: a project without a full
group:artifact:version identity is skipped entirely (`if not from_gav:
continue`); each dependency of the remaining projects yields one edge. -/
def depEdges (gavIdx gaIdx : List (String × MvnProject)) :
    List MvnProject → List DepEdge
  | [] => []
  | p :: rest =>
      match projGav p with
      | none => depEdges gavIdx gaIdx rest
      | some f =>
          p.dependencies.map (fun d => ⟨f, edge_target gavIdx gaIdx d, d.scope⟩) ++
            depEdges gavIdx gaIdx rest

/-- The `dependencies` edge list of the Maven `build_graph`. -/
def build_graph_dependencies (ps : List MvnProject) : List DepEdge :=
  depEdges (by_gav ps) (by_ga ps) ps

end Maven

/-! ### Source aggregation
(`summarize_sources`, dotnet_app_inspector.py lines 507-534 and
maven_app_inspector.py lines 538-563).  The per-file work is `try:
parse ... except: error summary`; we abstract the parse outcome of each
discovered file as an `Except` value.  The C# aggregator keys buckets by
namespace with default `"(global)"`, the Java one by package with default
`"(default)"`; both are instances of `summarize_sources` below. -/

structure ParsedSrc where
  pkg : Option String
  typeNames : List String
deriving DecidableEq

deriving instance DecidableEq for Except

structure FileSummary where
  path : String
  pkg : Option String
  typeNames : List String
  err : Option String
deriving DecidableEq

/-- The per-file summary: the parsed record on success, and on any
exception the error record `{"path": ..., "error": traceback}` whose
namespace/types default to none/empty. -/
def file_summary : String × Except String ParsedSrc → FileSummary
  | (p, Except.ok f) => ⟨p, f.pkg, f.typeNames, none⟩
  | (p, Except.error e) => ⟨p, none, [], some e⟩

structure NsBucket where
  files : List String
  typeNames : List String
deriving DecidableEq

def emptyBucket : NsBucket := ⟨[], []⟩

/-- Python `dict.setdefault` followed by in-place mutation of the bucket. -/
def updateBucket (key : String) (f : NsBucket → NsBucket) :
    List (String × NsBucket) → List (String × NsBucket)
  | [] => [(key, f emptyBucket)]
  | (k, b) :: rest =>
      if k = key then (k, f b) :: rest else (k, b) :: updateBucket key f rest

/-- Python `summary.get("namespace") or "(global)"` (resp. package/[default]):
`None` and the empty string both fall back to the default bucket. -/
def bucketKey (defaultNs : String) (s : FileSummary) : String :=
  match s.pkg with
  | some ns => if ns = "" then defaultNs else ns
  | none => defaultNs

/-- One iteration of the aggregation loop: append the file path to its
bucket and extend the bucket's types with the file's types. -/
def addSummary (defaultNs : String) (bs : List (String × NsBucket))
    (s : FileSummary) : List (String × NsBucket) :=
  updateBucket (bucketKey defaultNs s)
    (fun b => ⟨b.files ++ [s.path], b.typeNames ++ s.typeNames⟩) bs

structure SourcesSummary where
  buckets : List (String × NsBucket)
  file_count : Nat
deriving DecidableEq

/-- Function `summarize_sources`: fold the per-file summaries into namespace
buckets and count every file, errored ones included. -/
def summarize_sources (defaultNs : String)
    (files : List (String × Except String ParsedSrc)) : SourcesSummary :=
  let summaries := files.map file_summary
  ⟨summaries.foldl (addSummary defaultNs) [], summaries.length⟩

/-- Example scan: one file that parses (package `pkg`, one type `T`) and
one whose parse raises. -/
def exFiles : List (String × Except String ParsedSrc) :=
  [("good.java", Except.ok ⟨some "pkg", ["T"]⟩),
   ("bad.java", Except.error "boom")]

/-- First-match lookup in an association list.  The bucket maps and the
`props` dictionary never hold a duplicate key (buckets are updated in
place, `props` is guarded by a membership test), so this agrees with
Python dict lookup on them. -/
def lookupFirst {α β : Type} [DecidableEq α] : List (α × β) → α → Option β
  | [], _ => none
  | (k, v) :: rest, key => if k = key then some v else lookupFirst rest key

namespace Dotnet

/-- Example workspace: project `A` at `/r/A/A.csproj`. -/
def exA : CsProject := ⟨["r", "A", "A.csproj"], ["r", "A"], [], []⟩

/-- Example workspace: project `B` at `/r/B/B.csproj` holding one project
reference whose include path `../A` resolves to `A`'s directory (not to
`A`'s descriptor file). -/
def exB : CsProject :=
  ⟨["r", "B", "B.csproj"], ["r", "B"], [⟨some ["..", "A"], none, none⟩], []⟩

/-- Example workspace: as `exB` but with a conventional reference to the
descriptor file `../A/A.csproj` itself. -/
def exB' : CsProject :=
  ⟨["r", "B", "B.csproj"], ["r", "B"],
    [⟨some ["..", "A", "A.csproj"], none, none⟩], []⟩

end Dotnet

namespace Maven

/-- Example workspace: internal project `g:a:1.0`. -/
def exP1 : MvnProject := ⟨some "g", some "a", some "1.0", []⟩

/-- Example workspace: project `g2:a2:2.0` depending on `g:a` at the
requested version `9`, which no internal project provides. -/
def exP2 : MvnProject :=
  ⟨some "g2", some "a2", some "2.0", [⟨some "g:a", some "g:a:9", "compile"⟩]⟩

/-- Example workspace: a project with no groupId, so no full identity. -/
def exP0 : MvnProject :=
  ⟨none, some "a0", some "0.1", [⟨some "x:y", some "x:y:1", "test"⟩]⟩

end Maven

/-! Length preservation: every branch appends exactly as many characters
as it consumes. -/

theorem stripCsFrom_length (m : CsMode) (cs : List Char) :
    (stripCsFrom m cs).length = cs.length := by
  induction m, cs using stripCsFrom.induct <;>
    simp only [stripCsFrom] <;> (try split_ifs) <;> simp_all

theorem stripJavaFrom_length (m : JMode) (cs : List Char) :
    (stripJavaFrom m cs).length = cs.length := by
  induction m, cs using stripJavaFrom.induct <;>
    simp only [stripJavaFrom] <;> (try split_ifs) <;> simp_all

/-! No newline is ever introduced: every output position holding a newline
holds a newline in the input too (the strippers emit a newline only when
copying one, or when copying an arbitrary character in the normal state). -/

theorem stripCsFrom_head_nl (m : CsMode) (c : Char) (r : List Char)
    (h : (stripCsFrom m (c :: r))[0]? = some '\n') : c = '\n' := by
  cases m <;> cases r <;> simp only [stripCsFrom] at h <;>
    (try split_ifs at h) <;> simp_all

theorem stripCsFrom_nl_of (m : CsMode) (cs : List Char) :
    ∀ i : Nat, (stripCsFrom m cs)[i]? = some '\n' → cs[i]? = some '\n' := by
  induction m, cs using stripCsFrom.induct <;>
    simp only [stripCsFrom] <;> (try split_ifs) <;>
    intro i h <;> rcases i with _ | _ | i <;>
    simp_all <;> solve_by_elim [stripCsFrom_head_nl]

theorem stripJavaFrom_head_nl (m : JMode) (c : Char) (r : List Char)
    (h : (stripJavaFrom m (c :: r))[0]? = some '\n') : c = '\n' := by
  cases m <;> cases r <;> simp only [stripJavaFrom] at h <;>
    (try split_ifs at h) <;> simp_all

theorem stripJavaFrom_nl_of (m : JMode) (cs : List Char) :
    ∀ i : Nat, (stripJavaFrom m cs)[i]? = some '\n' → cs[i]? = some '\n' := by
  induction m, cs using stripJavaFrom.induct <;>
    simp only [stripJavaFrom] <;> (try split_ifs) <;>
    intro i h <;> rcases i with _ | _ | i <;>
    simp_all <;> solve_by_elim [stripJavaFrom_head_nl]

/-- Input text with no double-quote and no single-quote characters: on such
text the strippers can never enter a string, verbatim-string or
char-literal state. -/
abbrev noQuotes (cs : List Char) : Prop := ∀ c ∈ cs, c ≠ dq ∧ c ≠ sq

theorem nl_ne_dq : ('\n' : Char) ≠ dq := by decide
theorem nl_ne_sq : ('\n' : Char) ≠ sq := by decide

theorem csGoodNormal :
    CsMode.normal = CsMode.normal ∨ CsMode.normal = CsMode.slc ∨
      CsMode.normal = CsMode.mlc := Or.inl rfl
theorem csGoodSlc :
    CsMode.slc = CsMode.normal ∨ CsMode.slc = CsMode.slc ∨
      CsMode.slc = CsMode.mlc := Or.inr (Or.inl rfl)
theorem csGoodMlc :
    CsMode.mlc = CsMode.normal ∨ CsMode.mlc = CsMode.slc ∨
      CsMode.mlc = CsMode.mlc := Or.inr (Or.inr rfl)

theorem stripCsFrom_head_nl_to (m : CsMode) (c : Char) (r : List Char)
    (hm : m = CsMode.normal ∨ m = CsMode.slc ∨ m = CsMode.mlc)
    (hc : c = '\n') : (stripCsFrom m (c :: r))[0]? = some '\n' := by
  subst hc
  rcases hm with hm | hm | hm <;> subst hm <;> cases r <;>
    simp [stripCsFrom, nl_ne_dq, nl_ne_sq]

/-- In the comment-tracking states (normal, line comment, block comment),
on quote-free input, every input newline survives at its position. -/
theorem stripCsFrom_nl_to (m : CsMode) (cs : List Char) :
    (m = CsMode.normal ∨ m = CsMode.slc ∨ m = CsMode.mlc) → noQuotes cs →
    ∀ i : Nat, cs[i]? = some '\n' → (stripCsFrom m cs)[i]? = some '\n' := by
  induction m, cs using stripCsFrom.induct <;> intro hm hq i h <;>
    (try (rcases hm with hm | hm | hm <;> exact CsMode.noConfusion hm)) <;>
    simp only [stripCsFrom] <;> (try split_ifs) <;>
    rcases i with _ | _ | i <;>
    simp_all [List.forall_mem_cons] <;>
    solve_by_elim [And.left, And.right, stripCsFrom_head_nl_to,
      csGoodNormal, csGoodSlc, csGoodMlc]

theorem jGoodNormal :
    JMode.normal = JMode.normal ∨ JMode.normal = JMode.slc ∨
      JMode.normal = JMode.mlc := Or.inl rfl
theorem jGoodSlc :
    JMode.slc = JMode.normal ∨ JMode.slc = JMode.slc ∨
      JMode.slc = JMode.mlc := Or.inr (Or.inl rfl)
theorem jGoodMlc :
    JMode.mlc = JMode.normal ∨ JMode.mlc = JMode.slc ∨
      JMode.mlc = JMode.mlc := Or.inr (Or.inr rfl)

theorem stripJavaFrom_head_nl_to (m : JMode) (c : Char) (r : List Char)
    (hm : m = JMode.normal ∨ m = JMode.slc ∨ m = JMode.mlc)
    (hc : c = '\n') : (stripJavaFrom m (c :: r))[0]? = some '\n' := by
  subst hc
  rcases hm with hm | hm | hm <;> subst hm <;> cases r <;>
    simp [stripJavaFrom, nl_ne_dq, nl_ne_sq]

theorem stripJavaFrom_nl_to (m : JMode) (cs : List Char) :
    (m = JMode.normal ∨ m = JMode.slc ∨ m = JMode.mlc) → noQuotes cs →
    ∀ i : Nat, cs[i]? = some '\n' → (stripJavaFrom m cs)[i]? = some '\n' := by
  induction m, cs using stripJavaFrom.induct <;> intro hm hq i h <;>
    (try (rcases hm with hm | hm | hm <;> exact JMode.noConfusion hm)) <;>
    simp only [stripJavaFrom] <;> (try split_ifs) <;>
    rcases i with _ | _ | i <;>
    simp_all [List.forall_mem_cons] <;>
    solve_by_elim [And.left, And.right, stripJavaFrom_head_nl_to,
      jGoodNormal, jGoodSlc, jGoodMlc]

/-! Unterminated literals and comments at end of input: the remainder is
blanked, no error is raised (the state machine is a total function). -/

theorem stripCsFrom_str_blank (m : CsMode) (cs : List Char) :
    m = CsMode.str → dq ∉ cs →
    stripCsFrom m cs = List.replicate cs.length ' ' := by
  induction m, cs using stripCsFrom.induct <;> intro hm h <;>
    (try exact CsMode.noConfusion hm) <;>
    simp only [stripCsFrom] <;> (try split_ifs) <;>
    simp_all [List.replicate_succ]

theorem stripCsFrom_slc_blank (m : CsMode) (cs : List Char) :
    m = CsMode.slc → '\n' ∉ cs →
    stripCsFrom m cs = List.replicate cs.length ' ' := by
  induction m, cs using stripCsFrom.induct <;> intro hm h <;>
    (try exact CsMode.noConfusion hm) <;>
    simp only [stripCsFrom] <;> (try split_ifs) <;>
    simp_all [List.replicate_succ]

theorem stripJavaFrom_str_blank (m : JMode) (cs : List Char) :
    m = JMode.str → dq ∉ cs →
    stripJavaFrom m cs = List.replicate cs.length ' ' := by
  induction m, cs using stripJavaFrom.induct <;> intro hm h <;>
    (try exact JMode.noConfusion hm) <;>
    simp only [stripJavaFrom] <;> (try split_ifs) <;>
    simp_all [List.replicate_succ]

theorem stripJavaFrom_slc_blank (m : JMode) (cs : List Char) :
    m = JMode.slc → '\n' ∉ cs →
    stripJavaFrom m cs = List.replicate cs.length ' ' := by
  induction m, cs using stripJavaFrom.induct <;> intro hm h <;>
    (try exact JMode.noConfusion hm) <;>
    simp only [stripJavaFrom] <;> (try split_ifs) <;>
    simp_all [List.replicate_succ]

/-! ### Parameter-splitter lemmas -/

/-- Every segment emitted by the splitter loop is non-empty: a segment is
only appended after its stripped form has been checked non-empty. -/
theorem splitParamsAux_ne_nil (rest : List Char) :
    ∀ (d : Nat) (cur : List Char), ∀ seg ∈ splitParamsAux d cur rest, seg ≠ [] := by
  induction rest with
  | nil =>
      intro d cur seg h
      simp only [splitParamsAux] at h
      split_ifs at h with hc
      · simp at h
      · simp at h; subst h; exact hc
  | cons c rest ih =>
      intro d cur seg h
      simp only [splitParamsAux] at h
      split_ifs at h with h1 h2 h3 h4
      · exact ih _ _ seg h
      · exact ih _ _ seg h
      · rw [List.nil_append] at h; exact ih _ _ seg h
      · rcases List.mem_append.1 h with h5 | h5
        · simp at h5; subst h5; exact h4
        · exact ih _ _ seg h5
      · exact ih _ _ seg h

/-! ### Ownership-interval lemmas -/

/-- The running counter of the interval scan only shifts the answer. -/
theorem owningTypeIndexFrom_shift (l : List Nat) (pos : Nat) :
    ∀ k : Nat, owningTypeIndexFrom k l pos =
      (owningTypeIndexFrom 0 l pos).map (· + k) := by
  induction l with
  | nil => intro k; simp [owningTypeIndexFrom]
  | cons b0 rest ih =>
      intro k
      cases rest with
      | nil => simp [owningTypeIndexFrom]
      | cons b1 rest2 =>
          simp only [owningTypeIndexFrom]
          split_ifs
          · simp
          · rw [ih (k + 1), ih 1, Option.map_map]
            congr 1
            funext a
            simp only [Function.comp_apply]
            omega

/-- On a strictly sorted boundary list, the scan returns exactly the index
of the interval containing `pos`. -/
theorem owning_type_index_eq (bounds : List Nat) (pos : Nat) :
    ∀ (i bi bi1 : Nat), bounds.Pairwise (· < ·) →
      bounds[i]? = some bi → bounds[i + 1]? = some bi1 →
      bi ≤ pos → pos < bi1 →
      owning_type_index bounds pos = some i := by
  induction bounds with
  | nil => intro i bi bi1 _ h1 _ _ _; simp at h1
  | cons b0 rest ih =>
      intro i bi bi1 hs h1 h2 hlo hhi
      cases i with
      | zero =>
          simp only [List.getElem?_cons_zero, Option.some_inj] at h1
          subst h1
          cases rest with
          | nil => simp at h2
          | cons b1 rest2 =>
              simp only [List.getElem?_cons_succ, List.getElem?_cons_zero,
                Option.some_inj] at h2
              subst h2
              simp only [owning_type_index, owningTypeIndexFrom]
              rw [if_pos ⟨hlo, hhi⟩]
      | succ j =>
          simp only [List.getElem?_cons_succ] at h1 h2
          cases rest with
          | nil => simp at h1
          | cons b1 rest2 =>
              have hb1bi : b1 ≤ bi := by
                cases j with
                | zero =>
                    simp only [List.getElem?_cons_zero, Option.some_inj] at h1
                    omega
                | succ j2 =>
                    simp only [List.getElem?_cons_succ] at h1
                    have hmem : bi ∈ rest2 := List.getElem?_mem h1
                    have := (List.pairwise_cons.1 (List.Pairwise.of_cons hs)).1
                    exact le_of_lt (this bi hmem)
              simp only [owning_type_index, owningTypeIndexFrom]
              rw [if_neg (by omega)]
              rw [owningTypeIndexFrom_shift]
              have hrec := ih j bi bi1 (List.Pairwise.of_cons hs) h1 h2 hlo hhi
              simp only [owning_type_index] at hrec
              rw [hrec]
              simp

/-! ### Member-attribution lemmas -/

/-- Step `add_ctor` preserves the invariant that every collected constructor
name equals its owning type's name. -/
theorem add_ctor_invariant (locs : List Nat) (types : List TypeAcc)
    (m : Nat × String)
    (h : ∀ t ∈ types, ∀ c ∈ t.ctors, c = t.name) :
    ∀ t ∈ add_ctor locs types m, ∀ c ∈ t.ctors, c = t.name := by
  have hsplit : add_ctor locs types m = types ∨
      ∃ (idx : Nat) (hlt : idx < types.length),
        m.2 = (types.get ⟨idx, hlt⟩).name ∧
        add_ctor locs types m =
          types.set idx
            ⟨(types.get ⟨idx, hlt⟩).name, (types.get ⟨idx, hlt⟩).methods,
              (types.get ⟨idx, hlt⟩).ctors ++ [m.2]⟩ := by
    unfold add_ctor
    split
    · exact Or.inl rfl
    next idx heqo =>
      split
      next hlt =>
        dsimp only
        split
        next hname => exact Or.inr ⟨idx, hlt, hname, rfl⟩
        next => exact Or.inl rfl
      next hlt => exact Or.inl rfl
  intro t ht
  rcases hsplit with heq | ⟨idx, hlt, hname, heq⟩
  · rw [heq] at ht; exact h t ht
  · rw [heq] at ht
    rcases List.mem_or_eq_of_mem_set ht with ht2 | ht2
    · exact h t ht2
    · subst ht2
      intro c hc
      rcases List.mem_append.1 hc with hc2 | hc2
      · exact h _ (types.get_mem idx hlt) c hc2
      · simp at hc2; subst hc2; exact hname.symm ▸ rfl

theorem collect_ctors_invariant (locs : List Nat) (ms : List (Nat × String)) :
    ∀ (types : List TypeAcc), (∀ t ∈ types, ∀ c ∈ t.ctors, c = t.name) →
      ∀ t ∈ collect_ctors types locs ms, ∀ c ∈ t.ctors, c = t.name := by
  induction ms with
  | nil => intro types h; simpa [collect_ctors] using h
  | cons m rest ih =>
      intro types h
      simpa [collect_ctors] using
        ih (add_ctor locs types m) (add_ctor_invariant locs types m h)

/-! ### Association-list lemmas -/

theorem lookupLast_mem {α β : Type} [DecidableEq α] :
    ∀ (l : List (α × β)) (k : α) (v : β), lookupLast l k = some v → (k, v) ∈ l := by
  intro l
  induction l with
  | nil => intro k v h; simp [lookupLast] at h
  | cons kv rest ih =>
      intro k v h
      obtain ⟨k1, v1⟩ := kv
      simp only [lookupLast] at h
      cases hr : lookupLast rest k with
      | some r =>
          rw [hr] at h
          simp only [Option.some_inj] at h
          subst h
          exact List.mem_cons_of_mem _ (ih k r hr)
      | none =>
          rw [hr] at h
          by_cases hk : k1 = k
          · rw [if_pos hk] at h
            obtain rfl : v1 = v := Option.some_inj.1 h
            subst hk
            exact List.mem_cons_self _ _
          · rw [if_neg hk] at h
            exact absurd h (by simp)

theorem lookupLast_isSome_of_mem {α β : Type} [DecidableEq α] :
    ∀ (l : List (α × β)) (k : α) (v : β), (k, v) ∈ l →
      (lookupLast l k).isSome = true := by
  intro l
  induction l with
  | nil => intro k v h; simp at h
  | cons kv rest ih =>
      intro k v h
      obtain ⟨k1, v1⟩ := kv
      rcases List.mem_cons.1 h with heq | hmem
      · cases heq
        simp only [lookupLast]
        cases hr : lookupLast rest k with
        | some r => simp
        | none => simp
      · simp only [lookupLast]
        have h2 := ih k v hmem
        cases hr : lookupLast rest k with
        | some r => simp
        | none => rw [hr] at h2; simp at h2

theorem lookupLast_append_single {α β : Type} [DecidableEq α]
    (t : α) (s : β) (k : α) :
    ∀ l : List (α × β),
      lookupLast (l ++ [(t, s)]) k = if t = k then some s else lookupLast l k := by
  intro l
  induction l with
  | nil => simp [lookupLast]
  | cons kv rest ih =>
      obtain ⟨k1, v1⟩ := kv
      simp only [List.cons_append, lookupLast, List.append_eq]
      rw [ih]
      split_ifs <;> rfl

/-! ### .NET graph lemmas -/

namespace Dotnet

theorem projRefEdges_eq (idx : List (List String × CsProject)) (p : CsProject) :
    ∀ refs : List CsProjRef,
      projRefEdges idx p refs =
        refs.filterMap (fun pr => pr.includePath.map (refEdge idx p pr)) := by
  intro refs
  induction refs with
  | nil => simp [projRefEdges]
  | cons pr rest ih =>
      cases hinc : pr.includePath <;>
        simp [projRefEdges, hinc, List.filterMap_cons, ih]

theorem allProjRefEdges_eq (idx : List (List String × CsProject)) :
    ∀ ps : List CsProject,
      allProjRefEdges idx ps =
        ps.flatMap (fun p => projRefEdges idx p p.projectReferences) := by
  intro ps
  induction ps with
  | nil => simp [allProjRefEdges]
  | cons p rest ih => simp [allProjRefEdges, ih]

theorem refEdge_mem (ps : List CsProject) (p : CsProject) (pr : CsProjRef)
    (inc : List String) (hp : p ∈ ps) (hpr : pr ∈ p.projectReferences)
    (hinc : pr.includePath = some inc) :
    refEdge (by_path ps) p pr inc ∈ (build_graph ps).project_references := by
  show refEdge (by_path ps) p pr inc ∈ allProjRefEdges (by_path ps) ps
  rw [allProjRefEdges_eq]
  refine List.mem_flatMap.2 ⟨p, hp, ?_⟩
  rw [projRefEdges_eq]
  exact List.mem_filterMap.2 ⟨pr, hpr, by rw [hinc]; rfl⟩

end Dotnet

/-! ### Maven graph lemmas -/

namespace Maven

theorem depEdges_mem (gavIdx gaIdx : List (String × MvnProject)) :
    ∀ (ps : List MvnProject) (p : MvnProject) (f : String) (d : MvnDep),
      p ∈ ps → projGav p = some f → d ∈ p.dependencies →
      (⟨f, edge_target gavIdx gaIdx d, d.scope⟩ : DepEdge) ∈
        depEdges gavIdx gaIdx ps := by
  intro ps
  induction ps with
  | nil => intro p f d hp; simp at hp
  | cons q rest ih =>
      intro p f d hp hf hd
      rcases List.mem_cons.1 hp with rfl | hp2
      · simp only [depEdges, hf]
        exact List.mem_append_left _ (List.mem_map.2 ⟨d, hd, rfl⟩)
      · simp only [depEdges]
        cases hq : projGav q
        · exact ih p f d hp2 hf hd
        · exact List.mem_append_right _ (ih p f d hp2 hf hd)

theorem by_gav_mem :
    ∀ (ps : List MvnProject) (p : MvnProject) (k : String),
      p ∈ ps → projGav p = some k → (k, p) ∈ by_gav ps := by
  intro ps
  induction ps with
  | nil => intro p k hp; simp at hp
  | cons q rest ih =>
      intro p k hp hk
      rcases List.mem_cons.1 hp with rfl | hp2
      · simp [by_gav, hk]
      · simp only [by_gav]
        cases hq : projGav q <;>
          simp only [List.nil_append, List.cons_append, List.mem_cons] <;>
          [skip; right] <;> exact ih p k hp2 hk

theorem by_ga_proj_mem :
    ∀ (ps : List MvnProject) (k : String) (p : MvnProject),
      (k, p) ∈ by_ga ps → p ∈ ps := by
  intro ps
  induction ps with
  | nil => intro k p h; simp [by_ga] at h
  | cons q rest ih =>
      intro k p h
      simp only [by_ga] at h
      cases hq : ga_key q.groupId q.artifactId with
      | none =>
          rw [hq] at h
          simp only [List.nil_append] at h
          exact List.mem_cons_of_mem _ (ih k p h)
      | some g =>
          rw [hq] at h
          rcases List.mem_append.1 h with h2 | h2
          · simp at h2
            exact h2.2 ▸ List.mem_cons_self _ _
          · exact List.mem_cons_of_mem _ (ih k p h2)

theorem depEdges_src (gavIdx gaIdx : List (String × MvnProject)) :
    ∀ (ps : List MvnProject) (e : DepEdge),
      e ∈ depEdges gavIdx gaIdx ps →
      ∃ p ∈ ps, projGav p = some e.srcGav := by
  intro ps
  induction ps with
  | nil => intro e h; simp [depEdges] at h
  | cons q rest ih =>
      intro e h
      simp only [depEdges] at h
      cases hq : projGav q with
      | none =>
          rw [hq] at h
          obtain ⟨p, hp, hgav⟩ := ih e h
          exact ⟨p, List.mem_cons_of_mem _ hp, hgav⟩
      | some f =>
          rw [hq] at h
          rcases List.mem_append.1 h with h2 | h2
          · obtain ⟨d, _, rfl⟩ := List.mem_map.1 h2
            exact ⟨q, List.mem_cons_self _ _, hq⟩
          · obtain ⟨p, hp, hgav⟩ := ih e h2
            exact ⟨p, List.mem_cons_of_mem _ hp, hgav⟩

theorem depEdges_filter (gavIdx gaIdx : List (String × MvnProject)) :
    ∀ ps : List MvnProject,
      depEdges gavIdx gaIdx ps =
        depEdges gavIdx gaIdx (ps.filter (fun p => (projGav p).isSome)) := by
  intro ps
  induction ps with
  | nil => rfl
  | cons q rest ih =>
      cases hq : projGav q <;>
        simp [depEdges, List.filter_cons, hq, ih]

end Maven

/-! ### Property-group lemmas -/

namespace Dotnet

theorem firstValid_append (tag : String) :
    ∀ a b : List (String × Option String),
      firstValid (a ++ b) tag =
        (firstValid a tag).elim (firstValid b tag) some := by
  intro a b
  induction a with
  | nil => simp [firstValid]
  | cons child rest ih =>
      obtain ⟨t, v⟩ := child
      cases v with
      | none => simpa [firstValid] using ih
      | some s =>
          simp only [List.cons_append, firstValid]
          split_ifs with h
          · rfl
          · exact ih

theorem collectPropsGroup_cons (props : List (String × String))
    (child : String × Option String) (rest : List (String × Option String)) :
    collectPropsGroup props (child :: rest) =
      collectPropsGroup (collectPropsGroup props [child]) rest := by
  simp [collectPropsGroup]

theorem collectPropsGroup_lookup (tag : String) :
    ∀ (g : List (String × Option String)) (props : List (String × String)),
      lookupLast (collectPropsGroup props g) tag =
        (lookupLast props tag).elim (firstValid g tag) some := by
  intro g
  induction g with
  | nil =>
      intro props
      simp only [collectPropsGroup, List.foldl_nil, firstValid]
      cases lookupLast props tag <;> rfl
  | cons child rest ih =>
      intro props
      obtain ⟨t, v⟩ := child
      rw [collectPropsGroup_cons, ih]
      cases v with
      | none =>
          simp only [collectPropsGroup, List.foldl_cons, List.foldl_nil, firstValid]
      | some s =>
          by_cases hs : s = ""
          · simp only [collectPropsGroup, List.foldl_cons, List.foldl_nil,
              if_pos hs, firstValid, hs]
            simp
          · simp only [collectPropsGroup, List.foldl_cons, List.foldl_nil,
              if_neg hs, firstValid]
            cases hpt : lookupLast props t with
            | some w =>
                by_cases htag : t = tag
                · subst htag
                  rw [hpt]
                  simp
                · cases hq : lookupLast props tag <;> simp [hs, htag]
            | none =>
                rw [lookupLast_append_single]
                by_cases htag : t = tag
                · subst htag
                  rw [if_pos rfl, hpt]
                  simp [hs]
                · rw [if_neg htag]
                  cases hq : lookupLast props tag <;> simp [hs, htag]

theorem parse_csproj_props_lookup_aux (tag : String) :
    ∀ (groups : List (List (String × Option String)))
      (props : List (String × String)),
      lookupLast (groups.foldl collectPropsGroup props) tag =
        (lookupLast props tag).elim (firstValid groups.flatten tag) some := by
  intro groups
  induction groups with
  | nil =>
      intro props
      simp only [List.foldl_nil, List.flatten_nil, firstValid]
      cases lookupLast props tag <;> rfl
  | cons g rest ih =>
      intro props
      simp only [List.foldl_cons, List.flatten_cons]
      rw [ih, collectPropsGroup_lookup, firstValid_append]
      cases hq : lookupLast props tag with
      | some w => simp
      | none => cases firstValid g tag <;> simp

end Dotnet

/-! ### Source-aggregation lemmas -/

theorem lookupFirst_updateBucket_self (key : String) (f : NsBucket → NsBucket) :
    ∀ bs : List (String × NsBucket),
      lookupFirst (updateBucket key f bs) key =
        some (f ((lookupFirst bs key).getD emptyBucket)) := by
  intro bs
  induction bs with
  | nil => simp [updateBucket, lookupFirst]
  | cons kb rest ih =>
      obtain ⟨k, b⟩ := kb
      by_cases hk : k = key
      · simp [updateBucket, lookupFirst, hk]
      · simp [updateBucket, lookupFirst, hk, ih]

theorem lookupFirst_updateBucket_other (key : String) (f : NsBucket → NsBucket)
    (k : String) (hk : k ≠ key) :
    ∀ bs : List (String × NsBucket),
      lookupFirst (updateBucket key f bs) k = lookupFirst bs k := by
  intro bs
  have hne : ¬key = k := fun h => hk h.symm
  induction bs with
  | nil =>
      simp only [updateBucket, lookupFirst]
      rw [if_neg hne]
  | cons kb rest ih =>
      obtain ⟨k1, b⟩ := kb
      by_cases hk1 : k1 = key
      · subst hk1
        simp only [updateBucket, if_pos rfl, lookupFirst]
        rw [if_neg hne, if_neg hne]
      · simp only [updateBucket, if_neg hk1, lookupFirst, ih]

theorem addSummary_mono (d : String) (s : FileSummary)
    (bs : List (String × NsBucket)) (k : String) (b : NsBucket)
    (hb : lookupFirst bs k = some b) :
    ∃ b2, lookupFirst (addSummary d bs s) k = some b2 ∧
      (∀ x ∈ b.files, x ∈ b2.files) ∧ (∀ x ∈ b.typeNames, x ∈ b2.typeNames) := by
  by_cases hk : k = bucketKey d s
  · subst hk
    refine ⟨⟨b.files ++ [s.path], b.typeNames ++ s.typeNames⟩, ?_, ?_, ?_⟩
    · rw [addSummary, lookupFirst_updateBucket_self, hb]; rfl
    · intro x hx; exact List.mem_append_left _ hx
    · intro x hx; exact List.mem_append_left _ hx
  · exact ⟨b, by rw [addSummary, lookupFirst_updateBucket_other _ _ _ hk, hb],
      fun x hx => hx, fun x hx => hx⟩

theorem foldl_addSummary_mono (d : String) :
    ∀ (l : List FileSummary) (bs : List (String × NsBucket)) (k : String)
      (b : NsBucket), lookupFirst bs k = some b →
      ∃ b2, lookupFirst (l.foldl (addSummary d) bs) k = some b2 ∧
        (∀ x ∈ b.files, x ∈ b2.files) ∧ (∀ x ∈ b.typeNames, x ∈ b2.typeNames) := by
  intro l
  induction l with
  | nil => intro bs k b hb; exact ⟨b, hb, fun x hx => hx, fun x hx => hx⟩
  | cons s rest ih =>
      intro bs k b hb
      obtain ⟨b1, hb1, hf1, ht1⟩ := addSummary_mono d s bs k b hb
      obtain ⟨b2, hb2, hf2, ht2⟩ := ih (addSummary d bs s) k b1 hb1
      exact ⟨b2, hb2, fun x hx => hf2 x (hf1 x hx), fun x hx => ht2 x (ht1 x hx)⟩

theorem addSummary_self_path (d : String) (s : FileSummary)
    (bs : List (String × NsBucket)) :
    ∃ b, lookupFirst (addSummary d bs s) (bucketKey d s) = some b ∧
      s.path ∈ b.files := by
  refine ⟨_, by rw [addSummary, lookupFirst_updateBucket_self], ?_⟩
  exact List.mem_append_right _ (List.mem_singleton.2 rfl)

theorem foldl_addSummary_types (P : String → Prop) (d : String) :
    ∀ (l : List FileSummary) (bs : List (String × NsBucket)),
      (∀ k b, lookupFirst bs k = some b → ∀ t ∈ b.typeNames, P t) →
      (∀ s ∈ l, ∀ t ∈ s.typeNames, P t) →
      ∀ k b, lookupFirst (l.foldl (addSummary d) bs) k = some b →
        ∀ t ∈ b.typeNames, P t := by
  intro l
  induction l with
  | nil => intro bs hbs _ k b hb; exact hbs k b hb
  | cons s rest ih =>
      intro bs hbs hl
      refine ih (addSummary d bs s) ?_ (fun s2 hs2 => hl s2 (List.mem_cons_of_mem _ hs2))
      intro k b hb t ht
      by_cases hk : k = bucketKey d s
      · subst hk
        rw [addSummary, lookupFirst_updateBucket_self] at hb
        obtain rfl := Option.some_inj.1 hb.symm
        rcases List.mem_append.1 ht with ht2 | ht2
        · cases hold : lookupFirst bs (bucketKey d s) with
          | none => rw [hold] at ht2; simp [emptyBucket] at ht2
          | some b0 => rw [hold] at ht2; exact hbs _ b0 hold t ht2
        · exact hl s (List.mem_cons_self _ _) t ht2
      · rw [addSummary, lookupFirst_updateBucket_other _ _ _ hk] at hb
        exact hbs k b hb t ht

/-! ## Claim theorems -/

/-- C1 (amended).  For every input text, both Lexical Sanitizers
(`strip_csharp_comments_and_strings` and `strip_java_comments_and_strings`)
return a string of the same length as the input, and no newline is
introduced: every output newline sits at a position where the input has a
newline.  The converse — every input newline surviving at its position —
holds for input containing no double-quote and no single-quote characters;
it fails inside string/character literals, where the code blanks newlines
to spaces (see the counterexample). -/
theorem C1_sanitizer_length_newlines (cs : List Char) :
    (strip_csharp_comments_and_strings cs).length = cs.length ∧
    (strip_java_comments_and_strings cs).length = cs.length ∧
    (∀ i : Nat, (strip_csharp_comments_and_strings cs)[i]? = some '\n' →
      cs[i]? = some '\n') ∧
    (∀ i : Nat, (strip_java_comments_and_strings cs)[i]? = some '\n' →
      cs[i]? = some '\n') ∧
    (noQuotes cs →
      ∀ i : Nat,
        ((strip_csharp_comments_and_strings cs)[i]? = some '\n' ↔
          cs[i]? = some '\n') ∧
        ((strip_java_comments_and_strings cs)[i]? = some '\n' ↔
          cs[i]? = some '\n')) := by
  refine ⟨stripCsFrom_length _ _, stripJavaFrom_length _ _,
    stripCsFrom_nl_of _ _, stripJavaFrom_nl_of _ _, fun hq i => ⟨⟨?_, ?_⟩, ⟨?_, ?_⟩⟩⟩
  · exact stripCsFrom_nl_of _ _ i
  · exact stripCsFrom_nl_to _ _ csGoodNormal hq i
  · exact stripJavaFrom_nl_of _ _ i
  · exact stripJavaFrom_nl_to _ _ jGoodNormal hq i

/-- C1 counterexample.  On the two-character input `"` followed by a
newline, both sanitizers blank the newline to a space: the output has the
same length but the input's newline at position 1 is not present in the
output, refuting the claim that every newline is preserved at its original
position for every input. -/
theorem C1_sanitizer_counterexample :
    ([dq, '\n'])[1]? = some '\n' ∧
    (strip_csharp_comments_and_strings [dq, '\n']).length = 2 ∧
    (strip_csharp_comments_and_strings [dq, '\n'])[1]? = some ' ' ∧
    ¬((strip_csharp_comments_and_strings [dq, '\n'])[1]? = some '\n') ∧
    (strip_java_comments_and_strings [dq, '\n'])[1]? = some ' ' ∧
    ¬((strip_java_comments_and_strings [dq, '\n'])[1]? = some '\n') := by
  decide

/-- C1 witness: the amended theorem applied to the concrete quote-free
input `a\nb` at position 1. -/
theorem C1_sanitizer_witness :
    ((strip_csharp_comments_and_strings "a\nb".toList)[1]? = some '\n' ↔
      ("a\nb".toList)[1]? = some '\n') ∧
    ((strip_java_comments_and_strings "a\nb".toList)[1]? = some '\n' ↔
      ("a\nb".toList)[1]? = some '\n') :=
  (C1_sanitizer_length_newlines "a\nb".toList).2.2.2.2 (by decide) 1

/-- C2.  Position-based ownership: on a strictly sorted boundary list
(type start offsets with a sentinel appended), `owning_type_index` assigns
a member at offset P to exactly the index i with start_i ≤ P < start_(i+1);
in particular for two sibling types A before B, a member match at or after
B's start (and before the sentinel) is attributed to B (index 1) and never
to A (index 0), and the method loop appends it to B's record. -/
theorem C2_owning_interval :
    (∀ (bounds : List Nat) (pos i bi bi1 : Nat),
       bounds.Pairwise (· < ·) →
       bounds[i]? = some bi → bounds[i + 1]? = some bi1 →
       bi ≤ pos → pos < bi1 →
       owning_type_index bounds pos = some i) ∧
    (∀ a b s pos : Nat, a < b → b ≤ pos → pos < s →
       owning_type_index [a, b, s] pos = some 1 ∧
       owning_type_index [a, b, s] pos ≠ some 0) ∧
    (∀ (nmA nmB : String) (a b s pos : Nat) (mname : String),
       a < b → b ≤ pos → pos < s →
       collect_methods (initTypes [nmA, nmB]) [a, b, s] [(pos, mname)] =
         [⟨nmA, [], []⟩, ⟨nmB, [mname], []⟩]) := by
  have hsib : ∀ a b s pos : Nat, a < b → b ≤ pos → pos < s →
      owning_type_index [a, b, s] pos = some 1 := by
    intro a b s pos h1 h2 h3
    simp only [owning_type_index, owningTypeIndexFrom]
    rw [if_neg (by omega), if_pos (by omega)]
  refine ⟨fun bounds pos i bi bi1 hs h1 h2 hlo hhi =>
      owning_type_index_eq bounds pos i bi bi1 hs h1 h2 hlo hhi,
    fun a b s pos h1 h2 h3 => ⟨hsib a b s pos h1 h2 h3, ?_⟩,
    fun nmA nmB a b s pos mname h1 h2 h3 => ?_⟩
  · rw [hsib a b s pos h1 h2 h3]; simp
  · simp [collect_methods, add_method, hsib a b s pos h1 h2 h3, initTypes,
      List.set]

/-- C2 witness: ownership and method attribution on concrete offsets
(type A at 10, type B at 50, sentinel 101, member match at 60). -/
theorem C2_owning_witness :
    owning_type_index [10, 50, 101] 60 = some 1 ∧
    collect_methods (initTypes ["A", "B"]) [10, 50, 101] [(60, "m")] =
      [⟨"A", [], []⟩, ⟨"B", ["m"], []⟩] :=
  ⟨(C2_owning_interval.2.1 10 50 101 60 (by decide) (by decide) (by decide)).1,
   C2_owning_interval.2.2 "A" "B" 10 50 101 60 "m" (by decide) (by decide)
     (by decide)⟩

/-- C3.  Starting from freshly created type records (empty constructor
lists), after the constructor loop runs over any sequence of
constructor-shaped matches, every name in every type's constructors list
equals that type's name: a match whose captured name differs from its
owning type's name is skipped. -/
theorem C3_ctor_names (names : List String) (locs : List Nat)
    (ms : List (Nat × String)) :
    ∀ t ∈ collect_ctors (initTypes names) locs ms, ∀ c ∈ t.ctors,
      c = t.name := by
  apply collect_ctors_invariant
  intro t ht c hc
  simp only [initTypes, List.mem_map] at ht
  obtain ⟨n, _, rfl⟩ := ht
  simp at hc

/-- C3 witness: in a file with one type `Baz` spanning [0, 100), a
constructor-shaped match named `Foo` at offset 10 is dropped while one
named `Baz` at offset 20 is kept, so the theorem's conclusion holds on the
resulting record. -/
theorem C3_ctor_witness :
    collect_ctors (initTypes ["Baz"]) [0, 100] [(10, "Foo"), (20, "Baz")] =
      [⟨"Baz", [], ["Baz"]⟩] ∧
    ("Baz" : String) = (⟨"Baz", [], ["Baz"]⟩ : TypeAcc).name :=
  ⟨by decide,
   C3_ctor_names ["Baz"] [0, 100] [(10, "Foo"), (20, "Baz")]
     ⟨"Baz", [], ["Baz"]⟩ (by decide) "Baz" (by decide)⟩

/-- C7.  `split_params` splits only on commas at `<`/`>` nesting depth
zero (depth floored at zero) and drops empty segments: on
`"Map<K, V> a, int b"` it returns exactly the two parameters
`"Map<K, V> a"` and `"int b"`, on the empty string it returns the empty
sequence, and no returned segment is ever empty. -/
theorem C7_split_params_spec :
    split_params "Map<K, V> a, int b".toList =
      ["Map<K, V> a".toList, "int b".toList] ∧
    split_params "".toList = [] ∧
    ∀ pb : List Char, ∀ seg ∈ split_params pb, seg ≠ [] :=
  ⟨by decide, by decide, fun pb => splitParamsAux_ne_nil pb 0 []⟩

/-- C7 witness: the no-empty-segment clause applied to the concrete input
`"a,x"` and its second segment. -/
theorem C7_split_params_witness : "x".toList ≠ ([] : List Char) :=
  C7_split_params_spec.2.2 "a,x".toList "x".toList (by decide)

/-- C8.  Both sanitizers are total state machines: started in any state
(hence also mid-comment or mid-literal) they consume the whole input and
return same-length output, so malformed input never raises; an
unterminated string literal (no closing quote to end of input) has its
remainder fully blanked to spaces, as does an unterminated line comment
(no newline to end of input); concretely, an unterminated block comment
`/*ab\ncd` is blanked with its newline preserved, and an unterminated
string `"abc` is blanked entirely. -/
theorem C8_sanitizer_total :
    (∀ (m : CsMode) (cs : List Char), (stripCsFrom m cs).length = cs.length) ∧
    (∀ (m : JMode) (cs : List Char), (stripJavaFrom m cs).length = cs.length) ∧
    (∀ cs : List Char, dq ∉ cs →
      stripCsFrom CsMode.str cs = List.replicate cs.length ' ') ∧
    (∀ cs : List Char, dq ∉ cs →
      stripJavaFrom JMode.str cs = List.replicate cs.length ' ') ∧
    (∀ cs : List Char, '\n' ∉ cs →
      stripCsFrom CsMode.slc cs = List.replicate cs.length ' ') ∧
    (∀ cs : List Char, '\n' ∉ cs →
      stripJavaFrom JMode.slc cs = List.replicate cs.length ' ') ∧
    strip_csharp_comments_and_strings "/*ab\ncd".toList = "    \n  ".toList ∧
    strip_java_comments_and_strings "/*ab\ncd".toList = "    \n  ".toList ∧
    strip_csharp_comments_and_strings (dq :: "abc".toList) = "    ".toList ∧
    strip_java_comments_and_strings (dq :: "abc".toList) = "    ".toList :=
  ⟨stripCsFrom_length, stripJavaFrom_length,
    fun cs h => stripCsFrom_str_blank _ cs rfl h,
    fun cs h => stripJavaFrom_str_blank _ cs rfl h,
    fun cs h => stripCsFrom_slc_blank _ cs rfl h,
    fun cs h => stripJavaFrom_slc_blank _ cs rfl h,
    by decide, by decide, by decide, by decide⟩

/-- C8 witness: the unterminated-string and unterminated-line-comment
clauses applied to the concrete terminator-free remainder `xy`. -/
theorem C8_sanitizer_total_witness :
    stripCsFrom CsMode.str "xy".toList = List.replicate "xy".toList.length ' ' ∧
    stripJavaFrom JMode.slc "xy".toList = List.replicate "xy".toList.length ' ' :=
  ⟨C8_sanitizer_total.2.2.1 "xy".toList (by decide),
   C8_sanitizer_total.2.2.2.2.2.1 "xy".toList (by decide)⟩

/-- C4 (amended).  For every project list and every project reference with
a non-empty include path, the .NET graph builder emits exactly one edge
(the whole edge list is characterized as one edge per non-empty-include
reference in order, so no edge is dropped and the build is total): the
include path is resolved relative to the referencing project's directory,
and if the resolved path matches another parsed descriptor's resolved
descriptor-file path (the `by_path` index key), the edge points to that
descriptor's identity, otherwise to the literal resolved path.  (The claim
as frozen says a match with a descriptor's directory yields the internal
edge; the counterexample shows the code keys the index by descriptor file
path, not directory.) -/
theorem C4_project_reference_edges (ps : List Dotnet.CsProject) :
    ((Dotnet.build_graph ps).project_references =
      ps.flatMap (fun p => p.projectReferences.filterMap
        (fun pr => pr.includePath.map (Dotnet.refEdge (Dotnet.by_path ps) p pr)))) ∧
    (∀ p ∈ ps, ∀ pr ∈ p.projectReferences, ∀ inc,
      pr.includePath = some inc →
      (∀ q, lookupLast (Dotnet.by_path ps)
          (Dotnet.normComps (Dotnet.normComps p.dir ++ inc)) = some q →
        (⟨p.csprojPath, q.csprojPath, pr.refName, pr.projectGuid⟩ :
            Dotnet.CsRefEdge) ∈ (Dotnet.build_graph ps).project_references) ∧
      (lookupLast (Dotnet.by_path ps)
          (Dotnet.normComps (Dotnet.normComps p.dir ++ inc)) = none →
        (⟨p.csprojPath, Dotnet.normComps (Dotnet.normComps p.dir ++ inc),
            pr.refName, pr.projectGuid⟩ : Dotnet.CsRefEdge) ∈
          (Dotnet.build_graph ps).project_references)) := by
  constructor
  · show Dotnet.allProjRefEdges (Dotnet.by_path ps) ps = _
    rw [Dotnet.allProjRefEdges_eq]
    simp only [Dotnet.projRefEdges_eq]
  · intro p hp pr hpr inc hinc
    constructor
    · intro q hq
      have hmem := Dotnet.refEdge_mem ps p pr inc hp hpr hinc
      simpa only [Dotnet.refEdge, hq] using hmem
    · intro hq
      have hmem := Dotnet.refEdge_mem ps p pr inc hp hpr hinc
      simpa only [Dotnet.refEdge, hq] using hmem

/-- C4 counterexample.  In the workspace `{A at /r/A/A.csproj, B at
/r/B/B.csproj}`, B's reference `../A` resolves exactly to A's directory
`/r/A`, yet the produced edge points to the literal path `/r/A` and not
to A's identity `/r/A/A.csproj`: matching a descriptor's directory does
not give an internal edge. -/
theorem C4_project_reference_counterexample :
    Dotnet.normComps (Dotnet.normComps Dotnet.exB.dir ++ ["..", "A"]) =
      Dotnet.exA.dir ∧
    (Dotnet.build_graph [Dotnet.exA, Dotnet.exB]).project_references =
      [⟨["r", "B", "B.csproj"], ["r", "A"], none, none⟩] ∧
    (["r", "A"] : List String) ≠ Dotnet.exA.csprojPath := by
  decide

/-- C4 witness: the amended theorem applied to the same workspace with
the conventional reference `../A/A.csproj`, which resolves to A's
descriptor-file path and yields the internal edge. -/
theorem C4_project_reference_witness :
    (⟨["r", "B", "B.csproj"], ["r", "A", "A.csproj"], none, none⟩ :
        Dotnet.CsRefEdge) ∈
      (Dotnet.build_graph [Dotnet.exA, Dotnet.exB']).project_references :=
  ((C4_project_reference_edges [Dotnet.exA, Dotnet.exB']).2 Dotnet.exB'
      (by decide) ⟨some ["..", "A", "A.csproj"], none, none⟩ (by decide)
      ["..", "A", "A.csproj"] (by decide)).1 Dotnet.exA (by decide)

/-- C5.  In the Maven dependency loop, for a project with full identity
`f` and a dependency whose exact coordinate misses the workspace index:
if its group:artifact coordinate hits an internal project, the emitted
edge's target is that project's own declared group:artifact:version (and
whenever the requested full coordinate was present, it differs from that
target, i.e. the internal project's version wins over the requested one);
if no internal project matches, an external edge carrying the dependency's
coordinate (or the marker `external`) and its scope is emitted. -/
theorem C5_internal_dependency_edges (ps : List Maven.MvnProject)
    (p : Maven.MvnProject) (f : String) (d : Maven.MvnDep)
    (hp : p ∈ ps) (hf : Maven.projGav p = some f) (hd : d ∈ p.dependencies)
    (hmiss : ∀ g, Maven.truthy d.gav = some g →
      lookupLast (Maven.by_gav ps) g = none) :
    (∀ ga tgt tg,
       Maven.truthy d.ga = some ga →
       lookupLast (Maven.by_ga ps) ga = some tgt →
       Maven.projGav tgt = some tg →
       ((⟨f, some tg, d.scope⟩ : Maven.DepEdge) ∈
          Maven.build_graph_dependencies ps ∧
        ∀ rg, Maven.truthy d.gav = some rg → rg ≠ tg)) ∧
    (∀ ga,
       Maven.truthy d.ga = some ga →
       lookupLast (Maven.by_ga ps) ga = none →
       (⟨f, some ga, d.scope⟩ : Maven.DepEdge) ∈
         Maven.build_graph_dependencies ps) ∧
    (Maven.truthy d.ga = none →
       (⟨f, some "external", d.scope⟩ : Maven.DepEdge) ∈
         Maven.build_graph_dependencies ps) := by
  have hskip : Maven.edge_target (Maven.by_gav ps) (Maven.by_ga ps) d =
      Maven.edge_target_ga (Maven.by_ga ps) d := by
    cases hg : Maven.truthy d.gav with
    | none => simp only [Maven.edge_target, hg]
    | some g => simp only [Maven.edge_target, hg, hmiss g hg]
  have hedge := Maven.depEdges_mem (Maven.by_gav ps) (Maven.by_ga ps)
    ps p f d hp hf hd
  refine ⟨fun ga tgt tg hga hlook htgt => ⟨?_, ?_⟩,
    fun ga hga hlooknone => ?_, fun hganone => ?_⟩
  · have htarget : Maven.edge_target (Maven.by_gav ps) (Maven.by_ga ps) d =
        some tg := by
      rw [hskip]
      simp only [Maven.edge_target_ga, hga, hlook]
      simpa only [Maven.projGav] using htgt
    rw [htarget] at hedge
    exact hedge
  · intro rg hrg heq
    have h1 := hmiss rg hrg
    have htgtmem : tgt ∈ ps :=
      Maven.by_ga_proj_mem ps ga tgt (lookupLast_mem _ ga tgt hlook)
    have h2 : (tg, tgt) ∈ Maven.by_gav ps :=
      Maven.by_gav_mem ps tgt tg htgtmem htgt
    have h3 := lookupLast_isSome_of_mem _ tg tgt h2
    rw [heq] at h1
    rw [h1] at h3
    simp at h3
  · have htarget : Maven.edge_target (Maven.by_gav ps) (Maven.by_ga ps) d =
        some ga := by
      rw [hskip]
      simp only [Maven.edge_target_ga, hga, hlooknone]
    rw [htarget] at hedge
    exact hedge
  · have htarget : Maven.edge_target (Maven.by_gav ps) (Maven.by_ga ps) d =
        some "external" := by
      rw [hskip]
      simp only [Maven.edge_target_ga, hganone]
    rw [htarget] at hedge
    exact hedge

/-- C5 witness: the workspace `{g:a:1.0, g2:a2:2.0}` where `g2:a2:2.0`
requests `g:a:9`; the emitted edge targets the internal version
`g:a:1.0`, not the requested `g:a:9`. -/
theorem C5_internal_dependency_witness :
    ((⟨"g2:a2:2.0", some "g:a:1.0", "compile"⟩ : Maven.DepEdge) ∈
      Maven.build_graph_dependencies [Maven.exP1, Maven.exP2]) ∧
    ("g:a:9" : String) ≠ "g:a:1.0" := by
  have h := (C5_internal_dependency_edges [Maven.exP1, Maven.exP2] Maven.exP2
    "g2:a2:2.0" ⟨some "g:a", some "g:a:9", "compile"⟩ (by decide) (by decide)
    (by decide)
    (fun g hg => by
      have hgeq : g = "g:a:9" := by simpa [Maven.truthy] using hg.symm
      subst hgeq
      decide)).1 "g:a" Maven.exP1 "g:a:1.0" (by decide)
    (by decide) (by decide)
  exact ⟨h.1, h.2 "g:a:9" (by decide)⟩

/-- C6.  The `props` dictionary built from the top-level property groups
maps every tag to the first non-empty value declared for it across the
groups in document order — later groups never override earlier ones; in
particular two groups both defining `AssemblyName` keep the first group's
value. -/
theorem C6_first_property_group_wins
    (groups : List (List (String × Option String))) (tag : String) :
    lookupLast (Dotnet.parse_csproj_props groups) tag =
      Dotnet.firstValid groups.flatten tag ∧
    lookupLast (Dotnet.parse_csproj_props
        [[("AssemblyName", some "First")], [("AssemblyName", some "Second")]])
      "AssemblyName" = some "First" := by
  constructor
  · have h := Dotnet.parse_csproj_props_lookup_aux tag groups []
    simpa [lookupLast, Dotnet.parse_csproj_props] using h
  · decide

/-- C9.  The Source Aggregator counts every discovered file (errored ones
included), builds for an errored file the error summary carrying its path
and diagnostic, files that errored land in the default bucket by path and
contribute no types, and every type in any bucket comes from a
successfully parsed file. -/
theorem C9_source_aggregator (defaultNs : String)
    (files : List (String × Except String ParsedSrc)) :
    (summarize_sources defaultNs files).file_count = files.length ∧
    (∀ p e, (p, Except.error e) ∈ files →
       file_summary (p, Except.error e) = ⟨p, none, [], some e⟩ ∧
       ∃ b, lookupFirst (summarize_sources defaultNs files).buckets defaultNs =
           some b ∧ p ∈ b.files) ∧
    (∀ ns b,
       lookupFirst (summarize_sources defaultNs files).buckets ns = some b →
       ∀ t ∈ b.typeNames, ∃ q pf, (q, Except.ok pf) ∈ files ∧
         t ∈ pf.typeNames) := by
  refine ⟨by simp [summarize_sources], ?_, ?_⟩
  · intro p e hmem
    refine ⟨rfl, ?_⟩
    obtain ⟨l1, l2, rfl⟩ := List.append_of_mem hmem
    have hbuckets :
        (summarize_sources defaultNs (l1 ++ (p, Except.error e) :: l2)).buckets =
        (l2.map file_summary).foldl (addSummary defaultNs)
          (addSummary defaultNs
            ((l1.map file_summary).foldl (addSummary defaultNs) [])
            (file_summary (p, Except.error e))) := by
      simp [summarize_sources, List.map_append, List.foldl_append]
    rw [hbuckets]
    have hkey : bucketKey defaultNs (file_summary (p, Except.error e)) =
        defaultNs := by
      simp [file_summary, bucketKey]
    obtain ⟨b1, hb1, hpath⟩ := addSummary_self_path defaultNs
      (file_summary (p, Except.error e))
      ((l1.map file_summary).foldl (addSummary defaultNs) [])
    rw [hkey] at hb1
    obtain ⟨b2, hb2, hf2, _⟩ := foldl_addSummary_mono defaultNs
      (l2.map file_summary) _ defaultNs b1 hb1
    exact ⟨b2, hb2, hf2 _ hpath⟩
  · intro ns b hb t ht
    refine foldl_addSummary_types
      (fun t => ∃ q pf, (q, Except.ok pf) ∈ files ∧ t ∈ pf.typeNames)
      defaultNs (files.map file_summary) [] ?_ ?_ ns b ?_ t ht
    · intro k b0 hb0; simp [lookupFirst] at hb0
    · intro s hs t2 ht2
      obtain ⟨⟨q, res⟩, hq, rfl⟩ := List.mem_map.1 hs
      cases res with
      | ok pf => exact ⟨q, pf, hq, by simpa [file_summary] using ht2⟩
      | error err => simp [file_summary] at ht2
    · simpa [summarize_sources] using hb

/-- C9 witness: the aggregator applied to one good file and one errored
file — both counted, the errored path recorded in the default bucket, and
the only bucket type traced back to the good file. -/
theorem C9_source_aggregator_witness :
    (summarize_sources "(default)" exFiles).file_count = 2 ∧
    (∃ b, lookupFirst (summarize_sources "(default)" exFiles).buckets
        "(default)" = some b ∧ "bad.java" ∈ b.files) ∧
    ∃ q pf, (q, Except.ok pf) ∈ exFiles ∧ "T" ∈ pf.typeNames :=
  ⟨(C9_source_aggregator "(default)" exFiles).1,
   ((C9_source_aggregator "(default)" exFiles).2.1 "bad.java" "boom"
     (by decide)).2,
   (C9_source_aggregator "(default)" exFiles).2.2 "pkg" ⟨["good.java"], ["T"]⟩
     (by decide) "T" (by decide)⟩

/-- C10.  A Maven project lacking a full group:artifact:version identity
contributes no dependency edge at all: the dependency list equals the one
computed from only the fully-identified projects (against the unchanged
indices), and every emitted edge's source is the full identity of some
project in the list. -/
theorem C10_gavless_projects_omitted (ps : List Maven.MvnProject) :
    Maven.build_graph_dependencies ps =
      Maven.depEdges (Maven.by_gav ps) (Maven.by_ga ps)
        (ps.filter (fun p => (Maven.projGav p).isSome)) ∧
    ∀ e ∈ Maven.build_graph_dependencies ps,
      ∃ p ∈ ps, Maven.projGav p = some e.srcGav :=
  ⟨Maven.depEdges_filter _ _ ps, fun e he => Maven.depEdges_src _ _ ps e he⟩

/-- C10 witness: with a groupId-less project in front, the edge list is
the one of the filtered list, and the only edge's source identity is the
fully-identified project's. -/
theorem C10_gavless_witness :
    (Maven.build_graph_dependencies [Maven.exP0, Maven.exP2] =
      Maven.depEdges (Maven.by_gav [Maven.exP0, Maven.exP2])
        (Maven.by_ga [Maven.exP0, Maven.exP2])
        ([Maven.exP0, Maven.exP2].filter
          (fun p => (Maven.projGav p).isSome))) ∧
    ∃ p ∈ [Maven.exP0, Maven.exP2], Maven.projGav p = some "g2:a2:2.0" :=
  ⟨(C10_gavless_projects_omitted [Maven.exP0, Maven.exP2]).1,
   (C10_gavless_projects_omitted [Maven.exP0, Maven.exP2]).2
     ⟨"g2:a2:2.0", some "g:a", "compile"⟩ (by decide)⟩

end Etops
